import Mathlib

/-!
# Verification of the ASW financial-statement normalization engine

Shallow embedding, in Lean 4, of the analytical core of the ASW scraper:

* the Delta Normalizer (`b3_math`, `apply_b3_math_logic`, `update_dataframe`
  from `backend/utils/finsheet_math.py`, with the account-family lists
  `last_quarters = ['3','4']` and `all_quarters = ['6','7']` taken from
  `backend/utils/fin_math.py`, since `backend/config/settings.py` does not
  define them);
* the Version Reconciler (`find_new_lines` from `finsheet_math.py`);
* NSD Discovery (`generate_nsd_list` from `backend/utils/nsd_scrap.py`);
* the Sector Store Router write loop (`save_to_db` from
  `backend/utils/finsheet_scrap.py`);
* the `nsd` metadata upsert (`save_to_db` from `nsd_scrap.py`).

Dataframes are modelled as Lean lists of rows, positional index = list
position.  Cell values (`valor`, a pandas object column that normally holds
floats but can hold strings after a corrupted scrape) are modelled by the
sum type `Val`: numbers as rationals, strings as `String`.  Python arithmetic
on `Val` is fallible (`Option`): subtracting anything involving a string
raises `TypeError` in the source, which the source catches; the embedding
propagates `none` to the same catch points.  Calendar dates are modelled at
day granularity as integers where only differences in days matter.
-/

namespace ASW

/-- A pandas cell of the `valor` column: either a (unit-normalized) number,
modelled as a rational, or a leftover string from a corrupted scrape. -/
inductive Val where
  | num (q : ℚ) : Val
  | txt (s : String) : Val
deriving DecidableEq, Repr

/-- Python `+` on two cells: number + number adds, string + string
concatenates, mixed raises `TypeError` (modelled as `none`). -/
def vadd : Val → Val → Option Val
  | .num a, .num b => some (.num (a + b))
  | .txt a, .txt b => some (.txt (a ++ b))
  | _, _ => none

/-- Python `-` on two cells: only number − number is defined, everything
else raises `TypeError` (modelled as `none`). -/
def vsub : Val → Val → Option Val
  | .num a, .num b => some (.num (a - b))
  | _, _ => none

/-- One comparison step of Python's `max`: keeps the current maximum unless
the next element is strictly greater; comparing a number with a string
raises `TypeError` (modelled as `none`). -/
def valMax2 : Val → Val → Option Val
  | .num a, .num b => some (.num (max a b))
  | .txt a, .txt b => some (.txt (if a < b then b else a))
  | _, _ => none

/-- `pandas.Series.max` over the `valor` cells of a quarter: `none` on an
empty series or when a comparison between mixed types raises. -/
def pandasMax : List Val → Option Val
  | [] => none
  | v :: vs => vs.foldl (fun acc b => acc.bind (fun a => valMax2 a b)) (some v)

/-- A quarter-end date, at `(year, month)` granularity; only the month is
inspected by the Delta Normalizer (`df['quarter'].dt.month`), the full date
is a reconciliation key. -/
structure QDate where
  year : ℤ
  month : ℕ
deriving DecidableEq, Repr

/-- One row of the `finsheet` table, restricted to the columns the
normalizer and reconciler read or write.  `valor` is the only column the
Delta Normalizer ever writes. -/
structure FinRow where
  company_name : String
  tipo : String
  conta : String
  quarter : QDate
  valor : Val
  version : ℤ
deriving DecidableEq, Repr

/-- Everything of a row except its `valor` cell; used to state that the
Delta Normalizer replaces values in place and nothing else. -/
def rowShape (r : FinRow) : String × String × String × QDate × ℤ :=
  (r.company_name, r.tipo, r.conta, r.quarter, r.version)

/-- `last_quarters = ['3', '4']` from `fin_math.py` (December alone is
cumulative for the year). -/
def last_quarters : List String := ["3", "4"]

/-- `all_quarters = ['6', '7']` from `fin_math.py` (every quarter-end is
cumulative since the start of the year). -/
def all_quarters : List String := ["6", "7"]

/-- `df[df['quarter'].dt.month == month].index[0]`: the position of the
first row of the group whose quarter falls in `m`, if any. -/
def monthIdx : List FinRow → ℕ → Option ℕ
  | [], _ => none
  | r :: rs, m => if r.quarter.month = m then some 0 else (monthIdx rs m).map (· + 1)

/-- `values[quarter_name]`: defaults to `0`; when the month is present it is
`df_quarter['valor'].max()`, and stays at the default `0` when that `max`
raises (the source catches the error per month, after the index was already
recorded). -/
def monthValor (df : List FinRow) (m : ℕ) : Val :=
  let vs := (df.filter fun r => r.quarter.month == m).map (·.valor)
  if vs.isEmpty then Val.num 0 else (pandasMax vs).getD (Val.num 0)

/-- `df.loc[idx, 'valor'] = v` for a positional index: replaces only the
`valor` cell of row `i`. -/
def setValor : List FinRow → ℕ → Val → List FinRow
  | [], _, _ => []
  | r :: rs, 0, v => { r with valor := v } :: rs
  | r :: rs, i + 1, v => r :: setValor rs i v

/-- One iteration of `update_dataframe`'s loop: write back only when the
quarter's index is not `None`. -/
def updValor (df : List FinRow) (idx : Option ℕ) (v : Val) : List FinRow :=
  match idx with
  | none => df
  | some i => setValor df i v

/-- `update_dataframe` from `finsheet_math.py`: writes the four quarter
values back at the recorded first-row indices, in dictionary order March,
June, September, December, skipping absent quarters. -/
def update_dataframe (df : List FinRow) (i3 i6 i9 i12 : Option ℕ)
    (v3 v6 v9 v12 : Val) : List FinRow :=
  updValor (updValor (updValor (updValor df i3 v3) i6 v6) i9 v9) i12 v12

/-- `apply_b3_math_logic` from `finsheet_math.py`.  The body runs under a
`try`: statements execute in order and the first `TypeError` jumps to the
handler, keeping every value already assigned.  For `last_quarters`:
`v12 -= (v9 + v6 + v3)`.  For `all_quarters`: `v6 -= v3`;
`v9 -= (v6 + v3)`; `v12 -= (v9 + v6 + v3)` — note these reuse the values
just assigned, they do not re-read the originals. -/
def apply_b3_math_logic (v3 v6 v9 v12 : Val) (family : String) :
    Val × Val × Val × Val :=
  if family ∈ last_quarters then
    match (vadd v9 v6).bind (fun s => vadd s v3) |>.bind (fun s => vsub v12 s) with
    | none => (v3, v6, v9, v12)
    | some w12 => (v3, v6, v9, w12)
  else if family ∈ all_quarters then
    match vsub v6 v3 with
    | none => (v3, v6, v9, v12)
    | some w6 =>
      match (vadd w6 v3).bind (fun s => vsub v9 s) with
      | none => (v3, w6, v9, v12)
      | some w9 =>
        match (vadd w9 w6).bind (fun s => vadd s v3) |>.bind (fun s => vsub v12 s) with
        | none => (v3, w6, w9, v12)
        | some w12 => (v3, w6, w9, w12)
  else (v3, v6, v9, v12)

/-- `b3_math` from `finsheet_math.py`, applied to one year-group (`df`) and
the first character of its `conta` (`family`, called `conta_prefix` in the
source).  For families in neither list the group passes through
unchanged. -/
def b3_math (df : List FinRow) (family : String) : List FinRow :=
  if family ∈ last_quarters ∨ family ∈ all_quarters then
    let r := apply_b3_math_logic (monthValor df 3) (monthValor df 6)
      (monthValor df 9) (monthValor df 12) family
    update_dataframe df (monthIdx df 3) (monthIdx df 6) (monthIdx df 9)
      (monthIdx df 12) r.1 r.2.1 r.2.2.1 r.2.2.2
  else df

/-- Selects the component of `apply_b3_math_logic`'s result belonging to the
quarter ending in month `m`. -/
def quarterPick (m : ℕ) (q : Val × Val × Val × Val) : Val :=
  if m = 3 then q.1 else if m = 6 then q.2.1 else if m = 9 then q.2.2.1 else q.2.2.2

/-- The four values `apply_b3_math_logic` produces for a group, from the
snapshot of per-quarter maxima. -/
def b3Vals (df : List FinRow) (family : String) : Val × Val × Val × Val :=
  apply_b3_math_logic (monthValor df 3) (monthValor df 6) (monthValor df 9)
    (monthValor df 12) family

/-! ### Version Reconciler: `find_new_lines` from `finsheet_math.py` -/

/-- The natural-key match used by the reconciliation merge.

Modelled from the spec: the merge's column list `settings.cols_order` is
absent from the source tree (`backend/config/settings.py` does not define
`cols_order`); §4.2 of the spec gives the reconciliation key as
(company_name, account_code, statement_kind, quarter), which in `finsheet`
column names is (company_name, conta, tipo, quarter). -/
def sameKey (n e : FinRow) : Prop :=
  n.company_name = e.company_name ∧ n.conta = e.conta ∧ n.tipo = e.tipo ∧
    n.quarter = e.quarter

instance : DecidablePred fun p : FinRow × FinRow => sameKey p.1 p.2 :=
  fun _ => by unfold sameKey; infer_instance

instance (n e : FinRow) : Decidable (sameKey n e) := by
  unfold sameKey; infer_instance

/-- The merge lines one candidate row of `df_new` contributes to the outer
merge: one `left_only` line when no existing row shares its key, otherwise
one `both` line per matching existing row. -/
def candLines (df_existing : List FinRow) (n : FinRow) :
    List (Option FinRow × Option FinRow) :=
  match df_existing.filter (fun e => decide (sameKey n e)) with
  | [] => [(some n, none)]
  | ms => ms.map fun e => (some n, some e)

/-- `pd.merge(df_new, df_existing, on=cols, how='outer', indicator=True)`:
left/both lines from the candidates, then the `right_only` lines of
existing rows no candidate key matches.  A line `(some n, some e)` is a
`'both'` line, `(some n, none)` is `'left_only'`, `(none, some e)` is
`'right_only'`. -/
def merge_outer (df_new df_existing : List FinRow) :
    List (Option FinRow × Option FinRow) :=
  (df_new.flatMap (candLines df_existing)) ++
    ((df_existing.filter fun e =>
      !(df_new.any fun n => decide (sameKey n e))).map fun e => (none, some e))

/-- `find_new_lines` from `finsheet_math.py`: keep a merged line when
`version_new > version_old` on a `'both'` line, or when the line is
`'left_only'`.  (On a `'right_only'` line `version_new` is `NaN`, and a
`NaN` comparison is `False` in pandas, so neither disjunct holds.) -/
def find_new_lines (df_existing df_new : List FinRow) :
    List (Option FinRow × Option FinRow) :=
  (merge_outer df_new df_existing).filter fun pr =>
    match pr with
    | (some n, some e) => decide (e.version < n.version)
    | (some _, none) => true
    | _ => false

/-! ### NSD Discovery: `generate_nsd_list` from `nsd_scrap.py` -/

/-- Python `int()` on a float/rational: truncation toward zero. -/
def ratTrunc (q : ℚ) : ℤ :=
  if q < 0 then -⌊-q⌋ else ⌊q⌋

/-- `generate_nsd_list` from `nsd_scrap.py`, taken after its two database
reads: `existing` is `SELECT nsd FROM nsd ORDER BY nsd`, and `last_nsd`,
`first_date`, `last_date` are the row returned by
`SELECT nsd, MIN(sent_date), MAX(sent_date) FROM nsd` (SQLite pairs the
bare `nsd` column with one of the aggregate rows, so `last_nsd` is some
existing id).  `current_date` is `datetime.now()`.  Dates are modelled as
integer day counts, so `(last_date - first_date).days` is an exact integer
difference. -/
def generate_nsd_list (existing : List ℕ) (last_nsd : ℕ)
    (first_date last_date current_date : ℤ) : List ℕ × List ℕ :=
  if existing.isEmpty then ([], [])
  else
    let max_nsd := existing.foldl max 0
    let nsd_new_values :=
      if last_nsd ≠ 0 then
        let days_diff_total : ℤ := last_date - first_date
        let items_per_day : ℚ :=
          if days_diff_total ≠ 0 then (last_nsd : ℚ) / (days_diff_total : ℚ) else 0
        let days_to_current : ℤ := current_date - last_date
        let remaining_items : ℤ := ratTrunc (items_per_day * (days_to_current : ℚ))
        List.range' last_nsd (remaining_items + 1).toNat
      else []
    let nsd_missing_values := (List.range' 1 max_nsd).filter fun i => !(existing.contains i)
    (nsd_new_values, nsd_missing_values)

/-! ### Sector Store Router: `save_to_db` from `finsheet_scrap.py` -/

namespace FinsheetScrap

/-- The per-sector write loop of `save_to_db` in `finsheet_scrap.py`.  The
whole `for setor, group in grouped:` loop runs inside a single
`try/except`: `writeOk` tells whether a given sector's store write
succeeds, and the first raising write jumps to the handler (which logs and
returns), abandoning the rest of the loop.  The result is the list of
sectors whose stores were actually written. -/
def save_to_db_writes (sectors : List String) (writeOk : String → Bool) :
    List String :=
  match sectors with
  | [] => []
  | s :: rest => if writeOk s then s :: save_to_db_writes rest writeOk else []

end FinsheetScrap

/-! ### `nsd` metadata upsert: `save_to_db` from `nsd_scrap.py` -/

namespace NsdScrap

/-- One row of the `nsd` disclosure-metadata table, restricted to the
columns that matter for upsert semantics (`nsd` is the primary key;
`sent_date` as integer day count). -/
structure NsdRec where
  nsd : ℕ
  company : String
  version : ℤ
  sent_date : ℤ
deriving DecidableEq, Repr

/-- One `INSERT ... ON CONFLICT(nsd) DO UPDATE SET company=excluded.company,
..., sent_date=excluded.sent_date, ...` statement from `save_to_db` in
`nsd_scrap.py`: on a primary-key conflict every column of the stored row is
overwritten with the incoming row, unconditionally. -/
def upsertOne (table : List NsdRec) (item : NsdRec) : List NsdRec :=
  if table.any fun r => r.nsd == item.nsd then
    table.map fun r => if r.nsd == item.nsd then item else r
  else table ++ [item]

/-- The `for item in data:` loop of `save_to_db` in `nsd_scrap.py`. -/
def save_to_db (table : List NsdRec) (data : List NsdRec) : List NsdRec :=
  data.foldl upsertOne table

end NsdScrap

/-! ### Concrete inputs used by witnesses and counterexamples -/

/-- A concrete year-group row: arbitrary but fixed non-`valor` columns. -/
def mkRow (m : ℕ) (v : Val) : FinRow :=
  ⟨"EMBRAER SA", "DFs Consolidadas", "6.01", ⟨2016, m⟩, v, 1⟩

/-- The ALL_QUARTERS example group of C1/C2: cumulative 10, 18, 25, 40. -/
def cdfA : List FinRow :=
  [mkRow 3 (.num 10), mkRow 6 (.num 18), mkRow 9 (.num 25), mkRow 12 (.num 40)]

/-- The LAST_QUARTER example group: cumulative-December 10, 5, 8, 30. -/
def cdfL : List FinRow :=
  [mkRow 3 (.num 10), mkRow 6 (.num 5), mkRow 9 (.num 8), mkRow 12 (.num 30)]

/-- A group whose September `valor` is a leftover string, so that the
second ALL_QUARTERS subtraction raises after June was already adjusted. -/
def cdfBad : List FinRow :=
  [mkRow 3 (.num 1), mkRow 6 (.num 2), mkRow 9 (.txt "x")]

/-- A LAST_QUARTER group whose December `valor` is a string, so the single
December subtraction raises and nothing changes. -/
def cdfBadL : List FinRow := [mkRow 12 (.txt "x"), mkRow 3 (.num 1)]

/-- A group with two December rows (a duplicate disclosure) holding
different values, plus a March row. -/
def cdfDup : List FinRow :=
  [mkRow 12 (.num 30), mkRow 12 (.num 5), mkRow 3 (.num 10)]

/-- Reconciliation example: the stored row, version 1, value 100. -/
def rOld : FinRow :=
  ⟨"EVORA SA", "DFs Consolidadas", "3.01", ⟨2014, 12⟩, .num 100, 1⟩

/-- Reconciliation example: a candidate for the same key, version 2,
value 150. -/
def rNew2 : FinRow :=
  ⟨"EVORA SA", "DFs Consolidadas", "3.01", ⟨2014, 12⟩, .num 150, 2⟩

/-- Reconciliation example: a candidate for the same key with the same
version 1, value 150. -/
def rNew1 : FinRow :=
  ⟨"EVORA SA", "DFs Consolidadas", "3.01", ⟨2014, 12⟩, .num 150, 1⟩

/-- `nsd` upsert example: the stored metadata row, id 1, sent day 10. -/
def nsdOld : NsdScrap.NsdRec := ⟨1, "EVORA OLD", 1, 10⟩

/-- `nsd` upsert example: an incoming row for id 1 whose sent day 5 is
older than the stored one. -/
def nsdNew : NsdScrap.NsdRec := ⟨1, "EVORA NEW", 2, 5⟩

/-! ### Basic lemmas about the positional write-back primitives -/

theorem setValor_length (df : List FinRow) (i : ℕ) (v : Val) :
    (setValor df i v).length = df.length := by
  induction df generalizing i with
  | nil => rfl
  | cons r rs ih => cases i <;> simp [setValor, ih]

theorem getElem?_setValor_ne (df : List FinRow) (i j : ℕ) (v : Val) (h : j ≠ i) :
    (setValor df i v)[j]? = df[j]? := by
  induction df generalizing i j with
  | nil => rfl
  | cons r rs ih =>
    cases i with
    | zero =>
      cases j with
      | zero => exact absurd rfl h
      | succ j => simp [setValor]
    | succ i =>
      cases j with
      | zero => simp [setValor]
      | succ j => simpa [setValor] using ih i j (fun hh => h (by omega))

theorem getElem?_setValor_self (df : List FinRow) (i : ℕ) (v : Val) :
    (setValor df i v)[i]? = (df[i]?).map (fun r => { r with valor := v }) := by
  induction df generalizing i with
  | nil => rfl
  | cons r rs ih =>
    cases i with
    | zero => simp [setValor]
    | succ i => simpa [setValor] using ih i

theorem rowShape_setValor (df : List FinRow) (i j : ℕ) (v : Val) :
    ((setValor df i v)[j]?).map rowShape = (df[j]?).map rowShape := by
  rcases Decidable.em (j = i) with h | h
  · subst h
    rw [getElem?_setValor_self]
    cases df[j]? <;> simp [rowShape]
  · rw [getElem?_setValor_ne df i j v h]

theorem updValor_length (df : List FinRow) (o : Option ℕ) (v : Val) :
    (updValor df o v).length = df.length := by
  cases o with
  | none => rfl
  | some i => exact setValor_length df i v

theorem getElem?_updValor_ne (df : List FinRow) (o : Option ℕ) (j : ℕ) (v : Val)
    (h : ∀ k, o = some k → j ≠ k) :
    (updValor df o v)[j]? = df[j]? := by
  cases o with
  | none => rfl
  | some i => exact getElem?_setValor_ne df i j v (h i rfl)

theorem getElem?_updValor_self (df : List FinRow) (i : ℕ) (v : Val) :
    (updValor df (some i) v)[i]? = (df[i]?).map (fun r => { r with valor := v }) :=
  getElem?_setValor_self df i v

theorem rowShape_updValor (df : List FinRow) (o : Option ℕ) (j : ℕ) (v : Val) :
    ((updValor df o v)[j]?).map rowShape = (df[j]?).map rowShape := by
  cases o with
  | none => rfl
  | some i => exact rowShape_setValor df i j v

/-! ### Lemmas about `monthIdx` and `monthValor` -/

theorem monthIdx_month (df : List FinRow) (m : ℕ) (i : ℕ)
    (h : monthIdx df m = some i) : ∃ r, df[i]? = some r ∧ r.quarter.month = m := by
  induction df generalizing i with
  | nil => simp [monthIdx] at h
  | cons r rs ih =>
    by_cases hm : r.quarter.month = m
    · simp only [monthIdx, if_pos hm, Option.some.injEq] at h
      exact ⟨r, by simp [← h], hm⟩
    · simp only [monthIdx, if_neg hm, Option.map_eq_some'] at h
      obtain ⟨k, hk, hki⟩ := h
      obtain ⟨s, hs, hsm⟩ := ih k hk
      exact ⟨s, by simpa [← hki] using hs, hsm⟩

theorem monthIdx_ne (df : List FinRow) {m m' : ℕ} {i i' : ℕ} (hmm : m ≠ m')
    (h : monthIdx df m = some i) (h' : monthIdx df m' = some i') : i ≠ i' := by
  intro he
  obtain ⟨r, hr, hrm⟩ := monthIdx_month df m i h
  obtain ⟨r', hr', hrm'⟩ := monthIdx_month df m' i' h'
  subst he
  rw [hr] at hr'
  cases hr'
  exact hmm (hrm ▸ hrm')

/-- Under the at-most-one-row-per-quarter input contract (distinct months
within the group), a row's position is exactly what `monthIdx` finds for its
month. -/
theorem monthIdx_of_getElem? (df : List FinRow)
    (hpw : df.Pairwise (fun a b => a.quarter.month ≠ b.quarter.month))
    {j : ℕ} {r : FinRow} (hj : df[j]? = some r) {m : ℕ} (hm : r.quarter.month = m) :
    monthIdx df m = some j := by
  induction df generalizing j with
  | nil => simp at hj
  | cons s rs ih =>
    rcases List.pairwise_cons.mp hpw with ⟨hs, hrs⟩
    cases j with
    | zero =>
      simp only [List.getElem?_cons_zero, Option.some.injEq] at hj
      subst hj
      simp [monthIdx, hm]
    | succ j =>
      simp only [List.getElem?_cons_succ] at hj
      have hmem : r ∈ rs := by
        rcases List.getElem?_eq_some_iff.mp hj with ⟨hlt, hget⟩
        exact hget ▸ List.getElem_mem hlt
      have hne : s.quarter.month ≠ m := hm ▸ hs r hmem
      simp [monthIdx, if_neg hne, ih hrs hj]

/-- Under distinct months, the rows of the group falling in month `m` are
exactly the row at `monthIdx`'s position. -/
theorem filter_month_single (df : List FinRow)
    (hpw : df.Pairwise (fun a b => a.quarter.month ≠ b.quarter.month))
    {j : ℕ} {r : FinRow} (hj : df[j]? = some r) {m : ℕ} (hm : r.quarter.month = m) :
    df.filter (fun s => s.quarter.month == m) = [r] := by
  induction df generalizing j with
  | nil => simp at hj
  | cons s rs ih =>
    rcases List.pairwise_cons.mp hpw with ⟨hs, hrs⟩
    cases j with
    | zero =>
      simp only [List.getElem?_cons_zero, Option.some.injEq] at hj
      subst hj
      have hnone : rs.filter (fun t => t.quarter.month == m) = [] := by
        rw [List.filter_eq_nil_iff]
        intro t ht
        have := hs t ht
        simp only [beq_iff_eq]
        exact fun hh => this (by rw [hm, hh])
      simp [List.filter_cons, hm, hnone]
    | succ j =>
      simp only [List.getElem?_cons_succ] at hj
      have hmem : r ∈ rs := by
        rcases List.getElem?_eq_some_iff.mp hj with ⟨hlt, hget⟩
        exact hget ▸ List.getElem_mem hlt
      have hne : s.quarter.month ≠ m := hm ▸ hs r hmem
      simp only [List.filter_cons, beq_iff_eq, if_neg hne]
      exact ih hrs hj

/-- Under distinct months, the "maximum of the quarter's duplicates" is just
the single row's observed value. -/
theorem monthValor_unique (df : List FinRow)
    (hpw : df.Pairwise (fun a b => a.quarter.month ≠ b.quarter.month))
    {j : ℕ} {r : FinRow} (hj : df[j]? = some r) {m : ℕ} (hm : r.quarter.month = m) :
    monthValor df m = r.valor := by
  unfold monthValor
  rw [filter_month_single df hpw hj hm]
  rfl

/-! ### Characterizing `b3_math`'s write-back -/

theorem b3_math_eq_update (df : List FinRow) (family : String)
    (hf : family ∈ last_quarters ∨ family ∈ all_quarters) :
    b3_math df family =
      update_dataframe df (monthIdx df 3) (monthIdx df 6) (monthIdx df 9)
        (monthIdx df 12) (b3Vals df family).1 (b3Vals df family).2.1
        (b3Vals df family).2.2.1 (b3Vals df family).2.2.2 := by
  simp only [b3_math, if_pos hf]
  rfl

theorem b3_math_of_not_mem (df : List FinRow) (family : String)
    (hf : ¬(family ∈ last_quarters ∨ family ∈ all_quarters)) :
    b3_math df family = df := by
  simp only [b3_math, if_neg hf]

theorem b3_math_length (df : List FinRow) (family : String) :
    (b3_math df family).length = df.length := by
  by_cases hf : family ∈ last_quarters ∨ family ∈ all_quarters
  · rw [b3_math_eq_update df family hf]
    unfold update_dataframe
    iterate 4 rw [updValor_length]
  · rw [b3_math_of_not_mem df family hf]

theorem rowShape_b3_math (df : List FinRow) (family : String) (j : ℕ) :
    ((b3_math df family)[j]?).map rowShape = (df[j]?).map rowShape := by
  by_cases hf : family ∈ last_quarters ∨ family ∈ all_quarters
  · rw [b3_math_eq_update df family hf]
    unfold update_dataframe
    iterate 4 rw [rowShape_updValor]
  · rw [b3_math_of_not_mem df family hf]

/-- Rows whose position is not a recorded first-row quarter index are not
touched by `b3_math` at all. -/
theorem getElem?_b3_math_frame (df : List FinRow) (family : String) (j : ℕ)
    (h3 : monthIdx df 3 ≠ some j) (h6 : monthIdx df 6 ≠ some j)
    (h9 : monthIdx df 9 ≠ some j) (h12 : monthIdx df 12 ≠ some j) :
    (b3_math df family)[j]? = df[j]? := by
  by_cases hf : family ∈ last_quarters ∨ family ∈ all_quarters
  · rw [b3_math_eq_update df family hf]
    unfold update_dataframe
    rw [getElem?_updValor_ne _ _ _ _ (fun k hk hjk => h12 (by rw [hk, hjk])),
      getElem?_updValor_ne _ _ _ _ (fun k hk hjk => h9 (by rw [hk, hjk])),
      getElem?_updValor_ne _ _ _ _ (fun k hk hjk => h6 (by rw [hk, hjk])),
      getElem?_updValor_ne _ _ _ _ (fun k hk hjk => h3 (by rw [hk, hjk]))]
  · rw [b3_math_of_not_mem df family hf]

/-- At the first-row index of a present quarter, `b3_math` rewrites exactly
the `valor` cell with that quarter's component of `apply_b3_math_logic`'s
result. -/
theorem getElem?_b3_math_write (df : List FinRow) (family : String) (m i : ℕ)
    (hf : family ∈ last_quarters ∨ family ∈ all_quarters)
    (hm : m = 3 ∨ m = 6 ∨ m = 9 ∨ m = 12)
    (hi : monthIdx df m = some i) :
    (b3_math df family)[i]? =
      (df[i]?).map (fun r => { r with valor := quarterPick m (b3Vals df family) }) := by
  have hne : ∀ m' : ℕ, m' ≠ m → ∀ k, monthIdx df m' = some k → i ≠ k := by
    intro m' hm' k hk
    exact (monthIdx_ne df (fun hh => hm' hh.symm) hi hk)
  rw [b3_math_eq_update df family hf]
  unfold update_dataframe
  rcases hm with rfl | rfl | rfl | rfl
  · rw [getElem?_updValor_ne _ _ _ _ (hne 12 (by omega)),
      getElem?_updValor_ne _ _ _ _ (hne 9 (by omega)),
      getElem?_updValor_ne _ _ _ _ (hne 6 (by omega)), hi,
      getElem?_updValor_self]
    simp [quarterPick]
  · rw [getElem?_updValor_ne _ _ _ _ (hne 12 (by omega)),
      getElem?_updValor_ne _ _ _ _ (hne 9 (by omega)), hi,
      getElem?_updValor_self,
      getElem?_updValor_ne _ _ _ _ (hne 3 (by omega))]
    simp [quarterPick]
  · rw [getElem?_updValor_ne _ _ _ _ (hne 12 (by omega)), hi,
      getElem?_updValor_self,
      getElem?_updValor_ne _ _ _ _ (hne 6 (by omega)),
      getElem?_updValor_ne _ _ _ _ (hne 3 (by omega))]
    simp [quarterPick]
  · rw [hi, getElem?_updValor_self,
      getElem?_updValor_ne _ _ _ _ (hne 9 (by omega)),
      getElem?_updValor_ne _ _ _ _ (hne 6 (by omega)),
      getElem?_updValor_ne _ _ _ _ (hne 3 (by omega))]
    simp [quarterPick]

/-! ### `apply_b3_math_logic` on numeric snapshots -/

theorem apply_logic_last (a b c d : ℚ) (f : String) (hf : f ∈ last_quarters) :
    apply_b3_math_logic (.num a) (.num b) (.num c) (.num d) f =
      (.num a, .num b, .num c, .num (d - (c + b + a))) := by
  simp only [last_quarters, List.mem_cons, List.mem_singleton, List.not_mem_nil,
    or_false] at hf
  rcases hf with rfl | rfl <;> rfl

theorem apply_logic_all (a b c d : ℚ) (f : String) (hf : f ∈ all_quarters) :
    apply_b3_math_logic (.num a) (.num b) (.num c) (.num d) f =
      (.num a, .num (b - a), .num (c - (b - a + a)),
        .num (d - (c - (b - a + a) + (b - a) + a))) := by
  simp only [all_quarters, List.mem_cons, List.mem_singleton, List.not_mem_nil,
    or_false] at hf
  rcases hf with rfl | rfl <;> rfl

/-- A row is returned exactly as observed whenever, for its own quarter (if
it is a quarter month at all), the value `b3_math` writes back equals the
row's current value.  Requires the at-most-one-row-per-quarter contract. -/
theorem getElem?_b3_math_untouched (df : List FinRow) (family : String)
    (hpw : df.Pairwise (fun a b => a.quarter.month ≠ b.quarter.month))
    {j : ℕ} {r : FinRow} (hj : df[j]? = some r)
    (hq : ∀ m : ℕ, m = 3 ∨ m = 6 ∨ m = 9 ∨ m = 12 → r.quarter.month = m →
      quarterPick m (b3Vals df family) = r.valor) :
    (b3_math df family)[j]? = some r := by
  by_cases hf : family ∈ last_quarters ∨ family ∈ all_quarters
  · by_cases hquarter : r.quarter.month = 3 ∨ r.quarter.month = 6 ∨
      r.quarter.month = 9 ∨ r.quarter.month = 12
    · have hidx : monthIdx df r.quarter.month = some j :=
        monthIdx_of_getElem? df hpw hj rfl
      have hw := getElem?_b3_math_write df family r.quarter.month j hf hquarter hidx
      rw [hw, hj, hq r.quarter.month hquarter rfl]
      rfl
    · push_neg at hquarter
      obtain ⟨hq3, hq6, hq9, hq12⟩ := hquarter
      have hfr : ∀ m : ℕ, r.quarter.month ≠ m → monthIdx df m ≠ some j := by
        intro m hm hcon
        obtain ⟨s, hs, hsm⟩ := monthIdx_month df m j hcon
        rw [hj] at hs
        cases hs
        exact hm hsm
      rw [getElem?_b3_math_frame df family j (hfr 3 hq3) (hfr 6 hq6)
        (hfr 9 hq9) (hfr 12 hq12), hj]
  · rw [b3_math_of_not_mem df family hf, hj]

/-! ### C5 — frame property of the Delta Normalizer -/

/-- C5: every run of the Delta Normalizer preserves the row set: the output
has exactly the rows of the input in the same positions, each identical to
its input row except possibly in the `valor` cell, and no row exists for a
quarter that had none (absent quarters enter the arithmetic as 0 but are
never written back). -/
theorem delta_normalizer_frame (df : List FinRow) (family : String) :
    (b3_math df family).length = df.length ∧
    (∀ j : ℕ, ((b3_math df family)[j]?).map rowShape = (df[j]?).map rowShape) ∧
    (∀ m : ℕ, (∀ (j : ℕ) (r : FinRow), df[j]? = some r → r.quarter.month ≠ m) →
      ∀ (j : ℕ) (r : FinRow), (b3_math df family)[j]? = some r →
        r.quarter.month ≠ m) := by
  refine ⟨b3_math_length df family, fun j => rowShape_b3_math df family j, ?_⟩
  intro m habs j r hr
  have hsh := rowShape_b3_math df family j
  rw [hr] at hsh
  cases hdf : df[j]? with
  | none => rw [hdf] at hsh; simp at hsh
  | some s =>
    rw [hdf] at hsh
    simp only [Option.map_some', Option.some.injEq, rowShape, Prod.mk.injEq] at hsh
    obtain ⟨-, -, -, hqq, -⟩ := hsh
    rw [hqq]
    exact habs j s hdf

/-! ### C2 — ALL_QUARTERS worked example -/

/-- C2: on any all-quarters year-group reporting March=10, June=18,
September=25, December=40, the Delta Normalizer produces March=10, June=8,
September=7, December=15. -/
theorem all_quarters_example (family : String) (hf : family ∈ all_quarters)
    (r3 r6 r9 r12 : FinRow)
    (h3m : r3.quarter.month = 3) (h3v : r3.valor = .num 10)
    (h6m : r6.quarter.month = 6) (h6v : r6.valor = .num 18)
    (h9m : r9.quarter.month = 9) (h9v : r9.valor = .num 25)
    (h12m : r12.quarter.month = 12) (h12v : r12.valor = .num 40) :
    b3_math [r3, r6, r9, r12] family =
      [{ r3 with valor := .num 10 }, { r6 with valor := .num 8 },
        { r9 with valor := .num 7 }, { r12 with valor := .num 15 }] := by
  have hv3 : monthValor [r3, r6, r9, r12] 3 = .num 10 := by
    simp [monthValor, List.filter, h3m, h6m, h9m, h12m, h3v, pandasMax]
  have hv6 : monthValor [r3, r6, r9, r12] 6 = .num 18 := by
    simp [monthValor, List.filter, h3m, h6m, h9m, h12m, h6v, pandasMax]
  have hv9 : monthValor [r3, r6, r9, r12] 9 = .num 25 := by
    simp [monthValor, List.filter, h3m, h6m, h9m, h12m, h9v, pandasMax]
  have hv12 : monthValor [r3, r6, r9, r12] 12 = .num 40 := by
    simp [monthValor, List.filter, h3m, h6m, h9m, h12m, h12v, pandasMax]
  have hvals : b3Vals [r3, r6, r9, r12] family =
      (.num 10, .num 8, .num 7, .num 15) := by
    rw [b3Vals, hv3, hv6, hv9, hv12, apply_logic_all 10 18 25 40 family hf]
    norm_num
  rw [b3_math_eq_update _ _ (Or.inr hf), hvals]
  have hi3 : monthIdx [r3, r6, r9, r12] 3 = some 0 := by simp [monthIdx, h3m]
  have hi6 : monthIdx [r3, r6, r9, r12] 6 = some 1 := by
    simp [monthIdx, h3m, h6m]
  have hi9 : monthIdx [r3, r6, r9, r12] 9 = some 2 := by
    simp [monthIdx, h3m, h6m, h9m]
  have hi12 : monthIdx [r3, r6, r9, r12] 12 = some 3 := by
    simp [monthIdx, h3m, h6m, h9m, h12m]
  rw [hi3, hi6, hi9, hi12]
  rfl

/-- Witness for C2 at a fully concrete group. -/
theorem all_quarters_example_witness :
    b3_math cdfA "6" =
      [mkRow 3 (.num 10), mkRow 6 (.num 8), mkRow 9 (.num 7), mkRow 12 (.num 15)] :=
  all_quarters_example "6" (by decide) (mkRow 3 (.num 10)) (mkRow 6 (.num 18))
    (mkRow 9 (.num 25)) (mkRow 12 (.num 40)) rfl rfl rfl rfl rfl rfl rfl rfl

/-! ### C3 — LAST_QUARTER rule -/

/-- C3: for a year-group of a LAST_QUARTER family (at most one row per
quarter, numeric values; `monthValor` is 0 for an absent quarter), December
is replaced by December − (September + June + March) and every other row is
returned unchanged.  A group with only a December row therefore computes
December − 0, i.e. December with 0 subtracted for each missing quarter. -/
theorem last_quarter_rule (df : List FinRow) (family : String)
    (hf : family ∈ last_quarters)
    (hpw : df.Pairwise (fun a b => a.quarter.month ≠ b.quarter.month))
    (a b c d : ℚ)
    (h3 : monthValor df 3 = .num a) (h6 : monthValor df 6 = .num b)
    (h9 : monthValor df 9 = .num c) (h12 : monthValor df 12 = .num d) :
    ∀ (j : ℕ) (r : FinRow), df[j]? = some r →
      (r.quarter.month ≠ 12 → (b3_math df family)[j]? = some r) ∧
      (r.quarter.month = 12 → (b3_math df family)[j]? =
        some { r with valor := .num (d - (c + b + a)) }) := by
  have hvals : b3Vals df family = (.num a, .num b, .num c, .num (d - (c + b + a))) := by
    rw [b3Vals, h3, h6, h9, h12, apply_logic_last a b c d family hf]
  intro j r hj
  constructor
  · intro hne12
    apply getElem?_b3_math_untouched df family hpw hj
    intro m hm hrm
    have huniq : monthValor df m = r.valor := monthValor_unique df hpw hj hrm
    rcases hm with rfl | rfl | rfl | rfl
    · rw [hvals]; rw [h3] at huniq; rw [← huniq]; rfl
    · rw [hvals]; rw [h6] at huniq; rw [← huniq]; rfl
    · rw [hvals]; rw [h9] at huniq; rw [← huniq]; rfl
    · exact absurd hrm hne12
  · intro h12m
    have hidx : monthIdx df 12 = some j := monthIdx_of_getElem? df hpw hj h12m
    rw [getElem?_b3_math_write df family 12 j (Or.inl hf) (by omega) hidx, hj,
      hvals]
    rfl

/-- Witness for C3 at the spec's worked example (10, 5, 8, 30 ⇒ December 7,
others unchanged) and at a group holding only a December row (unchanged). -/
theorem last_quarter_rule_witness :
    ((b3_math cdfL "3")[3]? = some (mkRow 12 (.num 7)) ∧
      (b3_math cdfL "3")[0]? = some (mkRow 3 (.num 10))) ∧
    (b3_math [mkRow 12 (.num 30)] "3")[0]? = some (mkRow 12 (.num 30)) := by
  have H := last_quarter_rule cdfL "3" (by decide) (by decide) 10 5 8 30
    rfl rfl rfl rfl
  have H12 := (H 3 (mkRow 12 (.num 30)) rfl).2 rfl
  have H3 := (H 0 (mkRow 3 (.num 10)) rfl).1 (by decide)
  have HD := last_quarter_rule [mkRow 12 (.num 30)] "3" (by decide) (by decide)
    0 0 0 30 rfl rfl rfl rfl
  have HD12 := (HD 0 (mkRow 12 (.num 30)) rfl).2 rfl
  have e1 : (30 : ℚ) - (8 + 5 + 10) = 7 := by norm_num
  have e2 : (30 : ℚ) - (0 + 0 + 0) = 30 := by norm_num
  rw [e1] at H12
  rw [e2] at HD12
  exact ⟨⟨H12, H3⟩, HD12⟩

/-! ### C1 — the ALL_QUARTERS subtractions are sequential, not snapshot -/

/-- C1 counterexample: on the cumulative inputs 10, 18, 25, 40 the code
produces September = 7, whereas the claimed snapshot formula
`September − (June_original + March_original)` yields 25 − (18 + 10) = −3.
The subtractions are applied sequentially to already-adjusted values, not
from one snapshot of originals. -/
theorem all_quarters_snapshot_counterexample :
    ((b3_math cdfA "6")[2]?).map (·.valor) = some (.num 7) ∧
    Val.num 7 ≠ .num (25 - (18 + 10)) := by
  constructor
  · have hvals : b3Vals cdfA "6" = (.num 10, .num 8, .num 7, .num 15) := by
      rw [b3Vals]
      have h3 : monthValor cdfA 3 = .num 10 := rfl
      have h6 : monthValor cdfA 6 = .num 18 := rfl
      have h9 : monthValor cdfA 9 = .num 25 := rfl
      have h12 : monthValor cdfA 12 = .num 40 := rfl
      rw [h3, h6, h9, h12, apply_logic_all 10 18 25 40 "6" (by decide)]
      norm_num
    have hi9 : monthIdx cdfA 9 = some 2 := rfl
    rw [getElem?_b3_math_write cdfA "6" 9 2 (Or.inr (by decide)) (by omega) hi9,
      hvals]
    rfl
  · simp only [ne_eq, Val.num.injEq]
    norm_num

/-- C1 amended: for an ALL_QUARTERS year-group the code adjusts in place,
reusing already-adjusted values (`v6 -= v3`; `v9 -= (v6 + v3)`;
`v12 -= (v9 + v6 + v3)`), which telescopes to subtracting only the
immediately preceding quarter's original value: March stays `March`, June
becomes `June − March`, September becomes `September − June`, December
becomes `December − September` (absent quarters entering as 0). -/
theorem all_quarters_sequential (df : List FinRow) (family : String)
    (hf : family ∈ all_quarters) (a b c d : ℚ)
    (h3 : monthValor df 3 = .num a) (h6 : monthValor df 6 = .num b)
    (h9 : monthValor df 9 = .num c) (h12 : monthValor df 12 = .num d) :
    (∀ i : ℕ, monthIdx df 3 = some i → (b3_math df family)[i]? =
      (df[i]?).map fun r => { r with valor := Val.num a }) ∧
    (∀ i : ℕ, monthIdx df 6 = some i → (b3_math df family)[i]? =
      (df[i]?).map fun r => { r with valor := Val.num (b - a) }) ∧
    (∀ i : ℕ, monthIdx df 9 = some i → (b3_math df family)[i]? =
      (df[i]?).map fun r => { r with valor := Val.num (c - b) }) ∧
    (∀ i : ℕ, monthIdx df 12 = some i → (b3_math df family)[i]? =
      (df[i]?).map fun r => { r with valor := Val.num (d - c) }) := by
  have e9 : c - (b - a + a) = c - b := by ring
  have e12 : d - (c - b + (b - a) + a) = d - c := by ring
  have hvals : b3Vals df family =
      (.num a, .num (b - a), .num (c - b), .num (d - c)) := by
    rw [b3Vals, h3, h6, h9, h12, apply_logic_all a b c d family hf, e9, e12]
  refine ⟨fun i hi => ?_, fun i hi => ?_, fun i hi => ?_, fun i hi => ?_⟩
  · rw [getElem?_b3_math_write df family 3 i (Or.inr hf) (by omega) hi, hvals]
    rfl
  · rw [getElem?_b3_math_write df family 6 i (Or.inr hf) (by omega) hi, hvals]
    rfl
  · rw [getElem?_b3_math_write df family 9 i (Or.inr hf) (by omega) hi, hvals]
    rfl
  · rw [getElem?_b3_math_write df family 12 i (Or.inr hf) (by omega) hi, hvals]
    rfl

/-- Witness for the amended C1 on the concrete 10/18/25/40 group. -/
theorem all_quarters_sequential_witness :
    (b3_math cdfA "6")[1]? = some (mkRow 6 (.num 8)) ∧
    (b3_math cdfA "6")[3]? = some (mkRow 12 (.num 15)) := by
  have H := all_quarters_sequential cdfA "6" (by decide) 10 18 25 40
    rfl rfl rfl rfl
  have H6 := H.2.1 1 rfl
  have H12 := H.2.2.2 3 rfl
  have e6 : (18 : ℚ) - 10 = 8 := by norm_num
  have e12 : (40 : ℚ) - 25 = 15 := by norm_num
  simp only [e6] at H6
  simp only [e12] at H12
  exact ⟨H6, H12⟩

/-! ### C7 — failure handling of the value arithmetic -/

/-- C7 counterexample: in the group `cdfBad` (March 1, June 2, September a
string) of an ALL_QUARTERS family, the arithmetic fails at the September
statement, yet June has already been rewritten to 2 − 1: a partial
adjustment is written back, so the group's values are not left as
originally observed. -/
theorem arithmetic_failure_counterexample :
    ((b3_math cdfBad "6")[1]?).map (·.valor) = some (.num (2 - 1)) ∧
    ((cdfBad[1]?).map (·.valor) = some (.num 2)) ∧
    Val.num (2 - 1) ≠ .num 2 := by
  refine ⟨rfl, rfl, ?_⟩
  simp only [ne_eq, Val.num.injEq]
  norm_num

/-- C7 amended: for a LAST_QUARTER family, if the single December
subtraction fails the group really is returned exactly as observed (and no
exception escapes `b3_math`, which is total); for ALL_QUARTERS families
the counterexample shows quarters adjusted before the failing statement
are written back. -/
theorem arithmetic_failure_last_quarter (df : List FinRow) (family : String)
    (hf : family ∈ last_quarters)
    (hpw : df.Pairwise (fun a b => a.quarter.month ≠ b.quarter.month))
    (hfail : ((vadd (monthValor df 9) (monthValor df 6)).bind
        (fun s => vadd s (monthValor df 3))).bind
        (fun s => vsub (monthValor df 12) s) = none) :
    b3_math df family = df := by
  have hmem : family ∈ last_quarters ∨ family ∈ all_quarters := Or.inl hf
  have hvals : b3Vals df family =
      (monthValor df 3, monthValor df 6, monthValor df 9, monthValor df 12) := by
    unfold b3Vals apply_b3_math_logic
    rw [if_pos hf, hfail]
  apply List.ext_getElem?
  intro n
  cases hdn : df[n]? with
  | none =>
    rw [List.getElem?_eq_none]
    rw [b3_math_length]
    exact List.getElem?_eq_none_iff.mp hdn
  | some r =>
    apply getElem?_b3_math_untouched df family hpw hdn
    intro m hm hrm
    have huniq : monthValor df m = r.valor := monthValor_unique df hpw hdn hrm
    rw [hvals]
    rcases hm with rfl | rfl | rfl | rfl <;> exact huniq

/-- Witness for the amended C7: a group whose December cell is a string is
returned unchanged. -/
theorem arithmetic_failure_last_quarter_witness :
    b3_math cdfBadL "3" = cdfBadL :=
  arithmetic_failure_last_quarter cdfBadL "3" (by decide) (by decide) rfl

/-! ### C10 — duplicate rows for the same quarter -/

/-- C10: when a year-group of a normalized family holds several rows for
the same quarter, the quarter's "original" value entering the arithmetic
is the pandas maximum over the duplicates, the adjusted result is written
back only at the first (lowest-index) duplicate, and every other duplicate
row is returned exactly as observed. -/
theorem duplicate_quarter_rows (df : List FinRow) (family : String)
    (m i j : ℕ) (r : FinRow)
    (hf : family ∈ last_quarters ∨ family ∈ all_quarters)
    (hm : m = 3 ∨ m = 6 ∨ m = 9 ∨ m = 12)
    (hi : monthIdx df m = some i)
    (hj : df[j]? = some r) (hjm : r.quarter.month = m) (hne : j ≠ i) :
    (b3_math df family)[j]? = some r ∧
    (b3_math df family)[i]? =
      (df[i]?).map (fun s => { s with valor := quarterPick m (b3Vals df family) }) ∧
    monthValor df m =
      (pandasMax ((df.filter fun s => s.quarter.month == m).map (·.valor))).getD
        (.num 0) := by
  have hfrm : monthIdx df m ≠ some j := by
    rw [hi]
    intro hc
    cases hc
    exact hne rfl
  have hfr : ∀ m' : ℕ, m' ≠ m → monthIdx df m' ≠ some j := by
    intro m' hm' hcon
    obtain ⟨s, hs, hsm⟩ := monthIdx_month df m' j hcon
    rw [hj] at hs
    cases hs
    exact hm' (by rw [← hsm, hjm])
  refine ⟨?_, getElem?_b3_math_write df family m i hf hm hi, ?_⟩
  · have hframe : (b3_math df family)[j]? = df[j]? := by
      rcases hm with rfl | rfl | rfl | rfl
      · exact getElem?_b3_math_frame df family j hfrm (hfr 6 (by omega))
          (hfr 9 (by omega)) (hfr 12 (by omega))
      · exact getElem?_b3_math_frame df family j (hfr 3 (by omega)) hfrm
          (hfr 9 (by omega)) (hfr 12 (by omega))
      · exact getElem?_b3_math_frame df family j (hfr 3 (by omega))
          (hfr 6 (by omega)) hfrm (hfr 12 (by omega))
      · exact getElem?_b3_math_frame df family j (hfr 3 (by omega))
          (hfr 6 (by omega)) (hfr 9 (by omega)) hfrm
    rw [hframe, hj]
  · have hmemdf : r ∈ df := by
      rcases List.getElem?_eq_some_iff.mp hj with ⟨hlt, hget⟩
      exact hget ▸ List.getElem_mem hlt
    have hfilter : r ∈ df.filter (fun s => s.quarter.month == m) :=
      List.mem_filter.mpr ⟨hmemdf, by simp [hjm]⟩
    have hne' : ((df.filter (fun s => s.quarter.month == m)).map (·.valor)).isEmpty
        = false := by
      cases hL : df.filter (fun s => s.quarter.month == m) with
      | nil => rw [hL] at hfilter; exact absurd hfilter (List.not_mem_nil r)
      | cons x xs => rfl
    simp only [monthValor]
    rw [hne']
    simp

/-- Witness for C10: December duplicated as 30 and 5 with March 10 in a
LAST_QUARTER family: max(30, 5) = 30 enters, 30 − (0 + 0 + 10) = 20 is
written at the first December row, and the second December row keeps 5. -/
theorem duplicate_quarter_rows_witness :
    (b3_math cdfDup "3")[1]? = some (mkRow 12 (.num 5)) ∧
    (b3_math cdfDup "3")[0]? = some (mkRow 12 (.num 20)) := by
  have H := duplicate_quarter_rows cdfDup "3" 12 0 1 (mkRow 12 (.num 5))
    (Or.inl (by decide)) (by omega) rfl rfl rfl (by omega)
  refine ⟨H.1, ?_⟩
  have e : quarterPick 12 (b3Vals cdfDup "3") = Val.num 20 := by
    show Val.num (max 30 5 - (0 + 0 + 10)) = Val.num 20
    rw [max_eq_left (by norm_num : (5 : ℚ) ≤ 30)]
    simp only [Val.num.injEq]
    norm_num
  rw [H.2.1, e]
  rfl

/-! ### C4 — Version Reconciler keep/drop semantics -/

theorem sameKey_symm {a b : FinRow} (h : sameKey a b) : sameKey b a := by
  obtain ⟨h1, h2, h3, h4⟩ := h
  exact ⟨h1.symm, h2.symm, h3.symm, h4.symm⟩

theorem sameKey_of_sameKey {n e e' : FinRow} (h : sameKey n e)
    (h' : sameKey n e') : sameKey e e' := by
  obtain ⟨h1, h2, h3, h4⟩ := h
  obtain ⟨h1', h2', h3', h4'⟩ := h'
  exact ⟨h1 ▸ h1', h2 ▸ h2', h3 ▸ h3', h4 ▸ h4'⟩

theorem mem_candLines_iff (E : List FinRow) (n : FinRow)
    (p : Option FinRow × Option FinRow) :
    p ∈ candLines E n ↔
      (E.filter (fun e => decide (sameKey n e)) = [] ∧ p = (some n, none)) ∨
      (∃ e ∈ E.filter (fun e => decide (sameKey n e)), p = (some n, some e)) := by
  unfold candLines
  cases hfilter : E.filter (fun e => decide (sameKey n e)) with
  | nil => simp
  | cons x xs =>
    simp only [List.mem_map, List.cons_ne_nil, false_and, false_or]
    constructor
    · rintro ⟨e, he, rfl⟩
      exact ⟨e, he, rfl⟩
    · rintro ⟨e, he, rfl⟩
      exact ⟨e, he, rfl⟩

theorem fst_of_mem_candLines {E : List FinRow} {n : FinRow}
    {p : Option FinRow × Option FinRow} (h : p ∈ candLines E n) :
    p.1 = some n := by
  rcases (mem_candLines_iff E n p).mp h with ⟨-, rfl⟩ | ⟨e, -, rfl⟩ <;> rfl

theorem mem_merge_outer_some_iff (N E : List FinRow) (n : FinRow)
    (eo : Option FinRow) (hn : n ∈ N) :
    (some n, eo) ∈ merge_outer N E ↔ (some n, eo) ∈ candLines E n := by
  unfold merge_outer
  rw [List.mem_append]
  constructor
  · rintro (h | h)
    · rcases List.mem_flatMap.mp h with ⟨n', hn', hp⟩
      obtain rfl : n' = n := (Option.some.inj (fst_of_mem_candLines hp)).symm
      exact hp
    · exfalso
      rcases List.mem_map.mp h with ⟨e, -, he⟩
      exact Option.noConfusion (congrArg Prod.fst he)
  · intro h
    exact Or.inl (List.mem_flatMap.mpr ⟨n, hn, h⟩)

/-- C4: a candidate row survives `find_new_lines` exactly when no existing
row shares its (company_name, conta, tipo, quarter) key or some existing
row shares it with a strictly smaller version; under the one-row-per-key
invariant on the existing set, an equal-version candidate is dropped; and
every existing row carried into the output is an unchanged member of the
existing set. -/
theorem reconciler_keeps_iff (E N : List FinRow)
    (hE : E.Pairwise fun e1 e2 => ¬ sameKey e1 e2)
    (n : FinRow) (hn : n ∈ N) :
    ((∃ eo, (some n, eo) ∈ find_new_lines E N) ↔
      ((∀ e ∈ E, ¬ sameKey n e) ∨
        (∃ e ∈ E, sameKey n e ∧ e.version < n.version))) ∧
    ((∃ e ∈ E, sameKey n e ∧ e.version = n.version) →
      ¬ ∃ eo, (some n, eo) ∈ find_new_lines E N) ∧
    (∀ pr ∈ find_new_lines E N, ∀ e : FinRow, pr.2 = some e → e ∈ E) := by
  have hkeep : ∀ eo, (some n, eo) ∈ find_new_lines E N ↔
      ((some n, eo) ∈ candLines E n ∧
        match eo with
        | some e => e.version < n.version
        | none => True) := by
    intro eo
    unfold find_new_lines
    rw [List.mem_filter, mem_merge_outer_some_iff N E n eo hn]
    cases eo with
    | none => simp
    | some e => simp
  refine ⟨?_, ?_, ?_⟩
  · by_cases hfE : E.filter (fun e => decide (sameKey n e)) = []
    · have hno : ∀ e ∈ E, ¬ sameKey n e := by
        intro e he hk
        have : e ∈ E.filter (fun e => decide (sameKey n e)) :=
          List.mem_filter.mpr ⟨he, by simp [hk]⟩
        rw [hfE] at this
        exact absurd this (List.not_mem_nil e)
      constructor
      · intro _
        exact Or.inl hno
      · intro _
        refine ⟨none, (hkeep none).mpr ⟨?_, trivial⟩⟩
        rw [mem_candLines_iff]
        exact Or.inl ⟨hfE, rfl⟩
    · have hsome : ∃ e ∈ E, sameKey n e := by
        cases hL : E.filter (fun e => decide (sameKey n e)) with
        | nil => exact absurd hL hfE
        | cons x xs =>
          have hx : x ∈ E.filter (fun e => decide (sameKey n e)) := by
            rw [hL]; exact List.mem_cons_self x xs
          rcases List.mem_filter.mp hx with ⟨hxE, hxk⟩
          exact ⟨x, hxE, of_decide_eq_true hxk⟩
      constructor
      · rintro ⟨eo, hkept⟩
        rcases (hkeep eo).mp hkept with ⟨hcand, hver⟩
        rcases (mem_candLines_iff E n (some n, eo)).mp hcand with
          ⟨hnil, -⟩ | ⟨e, hef, heq⟩
        · exact absurd hnil hfE
        · cases heq
          rcases List.mem_filter.mp hef with ⟨heE, hek⟩
          exact Or.inr ⟨e, heE, of_decide_eq_true hek, hver⟩
      · rintro (hno | ⟨e, heE, hek, hver⟩)
        · rcases hsome with ⟨e, heE, hek⟩
          exact absurd hek (hno e heE)
        · refine ⟨some e, (hkeep (some e)).mpr ⟨?_, hver⟩⟩
          rw [mem_candLines_iff]
          exact Or.inr ⟨e, List.mem_filter.mpr ⟨heE, by simp [hek]⟩, rfl⟩
  · rintro ⟨e, heE, hek, hveq⟩ ⟨eo, hkept⟩
    rcases (hkeep eo).mp hkept with ⟨hcand, hver⟩
    rcases (mem_candLines_iff E n (some n, eo)).mp hcand with
      ⟨hnil, -⟩ | ⟨e', hef, heq⟩
    · have : e ∈ E.filter (fun e => decide (sameKey n e)) :=
        List.mem_filter.mpr ⟨heE, by simp [hek]⟩
      rw [hnil] at this
      exact absurd this (List.not_mem_nil e)
    · cases heq
      rcases List.mem_filter.mp hef with ⟨heE', hek'⟩
      have hkey' : sameKey n e' := of_decide_eq_true hek'
      have hver' : e'.version < n.version := hver
      by_cases hee : e = e'
      · subst hee
        rw [hveq] at hver'
        exact lt_irrefl _ hver'
      · have hsymm : Symmetric fun e1 e2 : FinRow => ¬ sameKey e1 e2 :=
          fun a b hab hk => hab (sameKey_symm hk)
        exact hE.forall hsymm heE heE' hee (sameKey_of_sameKey hek hkey')
  · intro pr hpr e hsnd
    unfold find_new_lines at hpr
    rcases List.mem_filter.mp hpr with ⟨hmerge, -⟩
    unfold merge_outer at hmerge
    rcases List.mem_append.mp hmerge with h | h
    · rcases List.mem_flatMap.mp h with ⟨n', -, hp⟩
      rcases (mem_candLines_iff E n' pr).mp hp with ⟨-, rfl⟩ | ⟨e', hef, rfl⟩
      · exact Option.noConfusion hsnd
      · cases hsnd
        exact (List.mem_filter.mp hef).1
    · rcases List.mem_map.mp h with ⟨e', hef, heq⟩
      cases heq
      cases hsnd
      exact (List.mem_filter.mp hef).1

/-- Witness for C4 at the spec's reconciliation example: a version-2
candidate for a stored version-1 key is kept; a version-1 (equal)
candidate is dropped. -/
theorem reconciler_keeps_iff_witness :
    (∃ eo, (some rNew2, eo) ∈ find_new_lines [rOld] [rNew2]) ∧
    ¬ (∃ eo, (some rNew1, eo) ∈ find_new_lines [rOld] [rNew1]) := by
  have hpw : ([rOld]).Pairwise fun e1 e2 => ¬ sameKey e1 e2 :=
    List.pairwise_singleton _ _
  constructor
  · have H := reconciler_keeps_iff [rOld] [rNew2] hpw rNew2
      (List.mem_singleton.mpr rfl)
    refine H.1.mpr (Or.inr ⟨rOld, List.mem_singleton.mpr rfl, ?_, by decide⟩)
    exact ⟨rfl, rfl, rfl, rfl⟩
  · have H := reconciler_keeps_iff [rOld] [rNew1] hpw rNew1
      (List.mem_singleton.mpr rfl)
    exact H.2.1 ⟨rOld, List.mem_singleton.mpr rfl, ⟨rfl, rfl, rfl, rfl⟩, rfl⟩

/-! ### C6 — NSD Discovery -/

/-- When the earliest and latest disclosure dates coincide the rate is 0
and `remaining_items` is 0, but `range(last_nsd, last_nsd + 0 + 1)` is the
one-element list `[last_nsd]`, not the empty list. -/
theorem generate_nsd_list_equal_dates (existing : List ℕ) (last_nsd : ℕ)
    (d now : ℤ) (hne : existing ≠ []) (hlast : last_nsd ≠ 0) :
    (generate_nsd_list existing last_nsd d d now).1 = [last_nsd] := by
  have hempty : existing.isEmpty = false := by
    cases existing with
    | nil => exact absurd rfl hne
    | cons x xs => rfl
  unfold generate_nsd_list
  rw [hempty]
  simp only [Bool.false_eq_true, if_false, if_pos hlast, sub_self, ne_eq,
    not_true_eq_false, if_false, zero_mul]
  have htr : ratTrunc 0 = 0 := by
    unfold ratTrunc
    rw [if_neg (lt_irrefl 0)]
    exact Int.floor_zero
  rw [htr]
  rfl

/-- Membership in the gap-candidate list: exactly the integers of
`[1, max existing]` absent from the existing id set (empty when there are
no existing records). -/
theorem generate_nsd_list_gaps_mem (existing : List ℕ) (last_nsd : ℕ)
    (f l now : ℤ) (k : ℕ) :
    k ∈ (generate_nsd_list existing last_nsd f l now).2 ↔
      (existing ≠ [] ∧ 1 ≤ k ∧ k ≤ existing.foldl max 0 ∧ k ∉ existing) := by
  unfold generate_nsd_list
  cases existing with
  | nil => simp
  | cons x xs =>
    have hmem : k ∈ ((List.range' 1 ((x :: xs).foldl max 0)).filter
        fun i => !((x :: xs).contains i)) ↔
        (1 ≤ k ∧ k ≤ (x :: xs).foldl max 0) ∧ k ∉ x :: xs := by
      rw [List.mem_filter, List.mem_range'_1]
      constructor
      · rintro ⟨⟨h1, h2⟩, hc⟩
        refine ⟨⟨h1, by omega⟩, fun hm => ?_⟩
        rw [Bool.not_eq_eq_eq_not, Bool.not_true] at hc
        exact absurd (List.elem_iff.mpr hm) (by simpa [List.contains] using hc)
      · rintro ⟨⟨h1, h2⟩, hm⟩
        refine ⟨⟨h1, by omega⟩, ?_⟩
        rw [Bool.not_eq_eq_eq_not, Bool.not_true]
        simpa [List.contains] using fun hc => hm (List.elem_iff.mp hc)
    simp only [List.isEmpty_cons, Bool.false_eq_true, if_false]
    rw [hmem]
    simp only [ne_eq, List.cons_ne_nil, not_false_eq_true, true_and]
    tauto

/-- C6 counterexample: with existing ids {1, 2, 4, 6} and equal first/last
disclosure dates, the forward candidate list is `[6]` — not empty as
claimed. -/
theorem nsd_discovery_counterexample :
    (generate_nsd_list [1, 2, 4, 6] 6 0 0 100).1 = [6] ∧
    ([6] : List ℕ) ≠ [] := by
  refine ⟨generate_nsd_list_equal_dates [1, 2, 4, 6] 6 0 100 (by decide)
    (by decide), by decide⟩

/-- C6 amended: gap candidates are exactly the integers in
`[1, max existing]` absent from the existing id set (for {1,2,4,6} they
are [3,5]); with no existing records both lists are empty; but when the
earliest and latest disclosure dates are equal the forward list is the
one-element range `[last_id]` (the inclusive `range(last_nsd,
last_nsd + remaining + 1)`), not the empty list. -/
theorem nsd_discovery_amended (existing : List ℕ) (last_nsd : ℕ)
    (f l now : ℤ) (k : ℕ) :
    (generate_nsd_list [] last_nsd f l now = ([], [])) ∧
    ((generate_nsd_list [1, 2, 4, 6] 6 f l now).2 = [3, 5]) ∧
    (k ∈ (generate_nsd_list existing last_nsd f l now).2 ↔
      (existing ≠ [] ∧ 1 ≤ k ∧ k ≤ existing.foldl max 0 ∧ k ∉ existing)) ∧
    (existing ≠ [] → last_nsd ≠ 0 →
      (generate_nsd_list existing last_nsd f f now).1 = [last_nsd]) :=
  ⟨rfl, rfl, generate_nsd_list_gaps_mem existing last_nsd f l now k,
    fun hne hlast => generate_nsd_list_equal_dates existing last_nsd f now hne hlast⟩

/-- Witness for the amended C6 at the concrete example. -/
theorem nsd_discovery_amended_witness :
    ((generate_nsd_list [1, 2, 4, 6] 6 0 0 100).2 = [3, 5]) ∧
    (3 ∈ (generate_nsd_list [1, 2, 4, 6] 6 0 0 100).2) ∧
    ((generate_nsd_list [1, 2, 4, 6] 6 0 0 100).1 = [6]) := by
  have H := nsd_discovery_amended [1, 2, 4, 6] 6 0 0 100 3
  exact ⟨H.2.1, H.2.2.1.mpr (by decide), H.2.2.2 (by decide) (by decide)⟩

/-! ### C8 — Sector Store Router write loop -/

/-- C8 counterexample: with sectors ["A", "B"] where writing "A" fails and
writing "B" would succeed, nothing at all is written — the loop's single
`try/except` aborts the remaining sectors. -/
theorem sector_router_counterexample :
    FinsheetScrap.save_to_db_writes ["A", "B"] (fun s => s == "B") = [] ∧
    (fun s : String => s == "B") "B" = true := by
  exact ⟨rfl, rfl⟩

/-- C8 amended: the first failing sector write aborts the whole
`save_to_db` loop: sectors before the failure are persisted, the failing
sector and every remaining sector — even ones whose writes would
succeed — are not attempted. -/
theorem sector_router_stops_at_failure (pre post : List String) (s : String)
    (ok : String → Bool) (hpre : ∀ t ∈ pre, ok t = true) (hs : ok s = false) :
    FinsheetScrap.save_to_db_writes (pre ++ s :: post) ok = pre := by
  induction pre with
  | nil => simp [FinsheetScrap.save_to_db_writes, hs]
  | cons a rest ih =>
    have ha : ok a = true := hpre a (List.mem_cons_self a rest)
    show (if ok a then a :: FinsheetScrap.save_to_db_writes (rest ++ s :: post) ok
      else []) = a :: rest
    rw [ha, if_pos rfl, ih (fun t ht => hpre t (List.mem_cons_of_mem a ht))]

/-- Witness for the amended C8: "A" succeeds, "B" fails, "C" would succeed
but is skipped. -/
theorem sector_router_stops_at_failure_witness :
    FinsheetScrap.save_to_db_writes ["A", "B", "C"] (fun t => t != "B") = ["A"] :=
  sector_router_stops_at_failure ["A"] ["C"] "B" (fun t => t != "B")
    (by decide) (by decide)

/-! ### C9 — `nsd` metadata upsert -/

/-- C9 counterexample: an incoming row whose `sent_date` (day 5) is older
than the stored row's (day 10) still replaces the stored row — the
`ON CONFLICT(nsd) DO UPDATE` has no newer-`sent_date` guard. -/
theorem nsd_upsert_counterexample :
    NsdScrap.save_to_db [nsdOld] [nsdNew] = [nsdNew] ∧
    nsdNew.sent_date < nsdOld.sent_date ∧ nsdNew ≠ nsdOld := by
  exact ⟨rfl, by decide, by decide⟩

/-- C9 amended: an incoming row whose id already exists always replaces
the stored row, regardless of `sent_date` (last-write-wins upsert on the
primary key); rows with other ids are untouched and nothing else is
added. -/
theorem nsd_upsert_unconditional (table : List NsdScrap.NsdRec)
    (item r : NsdScrap.NsdRec) (hr : r ∈ table) (hk : r.nsd = item.nsd) :
    item ∈ NsdScrap.save_to_db table [item] ∧
    (r ≠ item → r ∉ NsdScrap.save_to_db table [item]) ∧
    (∀ s ∈ table, s.nsd ≠ item.nsd → s ∈ NsdScrap.save_to_db table [item]) ∧
    (∀ s ∈ NsdScrap.save_to_db table [item], s = item ∨ s ∈ table) := by
  have hone : NsdScrap.save_to_db table [item] = NsdScrap.upsertOne table item := rfl
  have hany : (table.any fun t => t.nsd == item.nsd) = true :=
    List.any_eq_true.mpr ⟨r, hr, by simp [hk]⟩
  have hmap : NsdScrap.upsertOne table item =
      table.map fun t => if t.nsd == item.nsd then item else t := by
    unfold NsdScrap.upsertOne
    rw [hany]
    rfl
  rw [hone, hmap]
  refine ⟨?_, ?_, ?_, ?_⟩
  · exact List.mem_map.mpr ⟨r, hr, by simp [hk]⟩
  · intro hne hmem
    rcases List.mem_map.mp hmem with ⟨x, hx, hfx⟩
    by_cases hxk : x.nsd = item.nsd
    · rw [if_pos (by simp [hxk])] at hfx
      exact hne hfx.symm
    · rw [if_neg (by simp [hxk])] at hfx
      exact hxk (hfx ▸ hk)
  · intro s hs hsk
    exact List.mem_map.mpr ⟨s, hs, by simp [hsk]⟩
  · intro s hs
    rcases List.mem_map.mp hs with ⟨x, hx, hfx⟩
    by_cases hxk : x.nsd = item.nsd
    · rw [if_pos (by simp [hxk])] at hfx
      exact Or.inl hfx.symm
    · rw [if_neg (by simp [hxk])] at hfx
      exact Or.inr (hfx ▸ hx)

/-- Witness for the amended C9 at the concrete rows: the older-dated
incoming row is present in the result and the stored row is gone. -/
theorem nsd_upsert_unconditional_witness :
    nsdNew ∈ NsdScrap.save_to_db [nsdOld] [nsdNew] ∧
    nsdOld ∉ NsdScrap.save_to_db [nsdOld] [nsdNew] := by
  have H := nsd_upsert_unconditional [nsdOld] nsdNew nsdOld
    (List.mem_singleton.mpr rfl) rfl
  exact ⟨H.1, H.2.1 (by decide)⟩

end ASW
